import Mathlib

/-!
Verification of the pure computation core of the saizeriya-sim repository
(`src/App.tsx`): totals aggregation, constraint evaluation, search filtering,
saved-combo creation/validation, the save-list retention policy, and the
greedy protein optimizer.  JS numbers are modelled as `ℚ`, JS strings as
lists of characters, and JS objects used as string-keyed records as
association lists.  Loops that are not structurally recursive in the source
are given explicit fuel.
-/

namespace Saizeriya

/-- JS strings, modelled as lists of characters. -/
abbrev Str : Type := List Char

/-- ASCII whitespace stripped by the model of `String.prototype.trim`. -/
def isWsChar (c : Char) : Bool :=
  c = ' ' || c = '\t' || c = '\n' || c = '\r'

/-- Model of `s.trim()`: strip whitespace from both ends. -/
def jsTrim (s : Str) : Str :=
  ((s.dropWhile isWsChar).reverse.dropWhile isWsChar).reverse

/-- ASCII lower-casing of a single character.  The spec only guarantees
ASCII case-insensitivity for the search filter, so the model lower-cases
the ASCII range and leaves every other character unchanged. -/
def lowerChar (c : Char) : Char :=
  if 'A' ≤ c ∧ c ≤ 'Z' then Char.ofNat (c.toNat + 32) else c

/-- Model of `s.toLowerCase()` on the ASCII-relevant fragment. -/
def jsToLower (s : Str) : Str := s.map lowerChar

/-- Does `hay` start with `key`?  Helper for the model of `includes`. -/
def strStartsWith : Str → Str → Bool
  | _, [] => true
  | [], _ :: _ => false
  | c :: hs, k :: ks => decide (c = k) && strStartsWith hs ks

/-- Model of `hay.includes(key)`: `key` occurs contiguously in `hay`. -/
def jsIncludes : Str → Str → Bool
  | [], key => strStartsWith [] key
  | c :: rest, key => strStartsWith (c :: rest) key || jsIncludes rest key

/-- The `Item` record from the source.  Optional numeric attributes are
`Option ℚ` (`none` plays the role of a missing field); the category is the
label string. -/
structure Item where
  id : Str
  name : Str
  category : Str
  price : ℚ
  kcal : Option ℚ := none
  protein : Option ℚ := none
  fat : Option ℚ := none
  carbs : Option ℚ := none
  salt : Option ℚ := none
  tags : Option (List Str) := none
deriving DecidableEq

/-- The `Targets` record from the source. -/
structure Targets where
  budget : Option ℚ := none
  maxKcal : Option ℚ := none
  minProtein : Option ℚ := none
  maxSalt : Option ℚ := none
deriving DecidableEq

/-- The record returned by `computeTotals`. -/
structure Totals where
  count : ℚ
  price : ℚ
  kcal : ℚ
  protein : ℚ
  fat : ℚ
  carbs : ℚ
  salt : ℚ
deriving DecidableEq

/-- A JS `Record<string, number>` mapping item ids to quantities, modelled
as an association list (the source only ever builds records with at most
one entry per key). -/
abbrev Ledger : Type := List (Str × ℚ)

/-- First-match association lookup, the model of reading `qty[id]`
(`none` plays the role of `undefined`). -/
def ledgerFind : Ledger → Str → Option ℚ
  | [], _ => none
  | (k, v) :: rest, id => if k = id then some v else ledgerFind rest id

/-- Model of `qty[id] || 0`: a missing key reads `undefined`, and `|| 0`
sends both `undefined` and `0` to `0`; over `ℚ` that is the default-0 read. -/
def ledgerRead (qty : Ledger) (id : Str) : ℚ := (ledgerFind qty id).getD 0

/-- `const sum = (arr) => arr.reduce((a, b) => a + b, 0)` from the source. -/
def sum (arr : List ℚ) : ℚ := arr.foldl (· + ·) 0

/-- `const getQty = (id) => Math.max(0, qty[id] || 0)` from `computeTotals`. -/
def getQty (qty : Ledger) (id : Str) : ℚ := max 0 (ledgerRead qty id)

/-- One summand of `pick`:
`typeof it[k] === "number" ? (it[k] as number) * getQty(it.id) : 0`
for an optional numeric attribute. -/
def pickAttr (v : Option ℚ) (q : ℚ) : ℚ :=
  match v with
  | some x => x * q
  | none => 0

/-- `computeTotals` from the source. -/
def computeTotals (items : List Item) (qty : Ledger) : Totals where
  count := sum (items.map fun it => getQty qty it.id)
  price := sum (items.map fun it => it.price * getQty qty it.id)
  kcal := sum (items.map fun it => pickAttr it.kcal (getQty qty it.id))
  protein := sum (items.map fun it => pickAttr it.protein (getQty qty it.id))
  fat := sum (items.map fun it => pickAttr it.fat (getQty qty it.id))
  carbs := sum (items.map fun it => pickAttr it.carbs (getQty qty it.id))
  salt := sum (items.map fun it => pickAttr it.salt (getQty qty it.id))

/-- The search haystack
`[it.name, it.category, ...(it.tags || [])].join(" ").toLowerCase()`. -/
def itemHaystack (it : Item) : Str :=
  jsToLower (List.intercalate [' '] ([it.name, it.category] ++ it.tags.getD []))

/-- `simpleFilter` from the source. -/
def simpleFilter (items : List Item) (q : Str) : List Item :=
  let key := jsToLower (jsTrim q)
  if key = [] then items
  else items.filter fun it => jsIncludes (itemHaystack it) key

/-- The `SavedCombo` record from the source. -/
structure SavedCombo where
  id : Str
  name : Str
  createdAt : ℚ
  qty : Ledger
  targets : Option Targets
deriving DecidableEq

/-- `createSavedCombo` from the source.  The impure readings are passed in
as parameters: `nowIdStr` is the decimal rendering of the `Date.now()`
spliced into the id, `now` the `Date.now()` stored in `createdAt`, and
`nowLocaleStr` the `new Date().toLocaleString("ja-JP")` fallback name. -/
def createSavedCombo (name : Str) (qty : Ledger) (targets : Option Targets)
    (nowIdStr : Str) (now : ℚ) (nowLocaleStr : Str) : SavedCombo where
  id := "save_".toList ++ nowIdStr
  name := if name ≠ [] ∧ jsTrim name ≠ [] then jsTrim name else nowLocaleStr
  createdAt := now
  qty :=
    (qty.filter fun e => decide (0 < e.2)).map fun e =>
      (e.1, ((max 0 ⌊e.2⌋ : ℤ) : ℚ))
  targets := targets

/-- JSON values as produced by `JSON.parse`, the input domain of
`validateSavedCombo`. -/
inductive JsValue : Type where
  | null : JsValue
  | bool : Bool → JsValue
  | num : ℚ → JsValue
  | str : String → JsValue
  | arr : List JsValue → JsValue
  | obj : List (String × JsValue) → JsValue

/-- JS truthiness of a JSON value (`NaN` is not representable in `ℚ`). -/
def truthy : JsValue → Bool
  | .null => false
  | .bool b => b
  | .num q => decide (q ≠ 0)
  | .str s => decide (s ≠ "")
  | .arr _ => true
  | .obj _ => true

/-- Does `typeof v === "object"` hold?  `null` and arrays are object-typed
in JS. -/
def typeofIsObject : JsValue → Bool
  | .null => true
  | .arr _ => true
  | .obj _ => true
  | _ => false

/-- Property read `v.k` on a parsed JSON value: only objects carry the data
properties read by `validateSavedCombo`; every other value reads
`undefined` (`none`) for those keys. -/
def getField : JsValue → String → Option JsValue
  | .obj fields, k => fields.lookup k
  | _, _ => none

/-- `typeof s.k === "string"` for a property read. -/
def isStringField : Option JsValue → Bool
  | some (.str _) => true
  | _ => false

/-- `typeof s.k === "number"` for a property read. -/
def isNumberField : Option JsValue → Bool
  | some (.num _) => true
  | _ => false

/-- `s.qty && typeof s.qty === "object"`: the field must be present, truthy
and object-typed. -/
def isTruthyObjectField : Option JsValue → Bool
  | some v => truthy v && typeofIsObject v
  | none => false

/-- `validateSavedCombo` from the source. -/
def validateSavedCombo (s : JsValue) : Bool :=
  truthy s && typeofIsObject s &&
    isStringField (getField s "id") &&
    isStringField (getField s "name") &&
    isNumberField (getField s "createdAt") &&
    isTruthyObjectField (getField s "qty")

/-- A non-null object-typed value: a JS object or array. -/
def IsObjectLike (v : JsValue) : Prop :=
  (∃ fields, v = JsValue.obj fields) ∨ (∃ elems, v = JsValue.arr elems)

/-- The shape the spec describes for `validate`: an object carrying a
string `id`, a string `name`, a numeric `createdAt` and an object-typed
`qty`, with no condition on `qty`'s contents or on `targets`. -/
def SpecValidShape (s : JsValue) : Prop :=
  ∃ fields, s = JsValue.obj fields ∧
    (∃ t, fields.lookup "id" = some (JsValue.str t)) ∧
    (∃ t, fields.lookup "name" = some (JsValue.str t)) ∧
    (∃ x, fields.lookup "createdAt" = some (JsValue.num x)) ∧
    (∃ q, fields.lookup "qty" = some q ∧ IsObjectLike q)

/-- `MAX_SAVES` from the source. -/
def MAX_SAVES : Nat := 50

/-- `arr.slice(-n)` for positive `n`: the last `n` elements (the whole
array when it is shorter than `n`). -/
def sliceLast (n : Nat) (l : List α) : List α := l.drop (l.length - n)

/-- The state update performed by `saveCurrent`:
`setSaves((prev) => [...prev.slice(-MAX_SAVES + 1), saved])`. -/
def saveCurrentSaves (prev : List SavedCombo) (saved : SavedCombo) : List SavedCombo :=
  sliceLast (MAX_SAVES - 1) prev ++ [saved]

/-- The state update performed by `importSaves` on a parsed array:
`setSaves((prev) => [...prev, ...valid].slice(-MAX_SAVES))`, where `valid`
is the sublist of imported entries that passed `validateSavedCombo`. -/
def importSavesAppend (prev valid : List SavedCombo) : List SavedCombo :=
  sliceLast MAX_SAVES (prev ++ valid)

/-- Protein per currency unit `(a.protein || 0) / a.price` used by the
greedy sort.  (Lean's `ℚ` division by zero yields `0` where JS yields an
infinite or undefined value; the two agree whenever the price is nonzero,
and no theorem below depends on the sort order of price-0 items.) -/
def protRate (it : Item) : ℚ := it.protein.getD 0 / it.price

/-- The comparator `(a, b) => rb - ra` orders by descending rate; as a
stable `le` relation: `a` may precede `b` iff `rate b ≤ rate a`. -/
def rateLe (a b : Item) : Bool := decide (protRate b ≤ protRate a)

/-- `Math.min(...sorted.map((x) => x.price))`; the `[]` case is unreachable
in the source, guarded there by the `sorted.length === 0` test. -/
def minPrice : List Item → ℚ
  | [] => 0
  | x :: xs => xs.foldl (fun m it => min m it.price) x.price

/-- `next[it.id] = (next[it.id] || 0) + 1`: bump a key in place or append
it at the end, as JS property assignment does. -/
def bump : Ledger → Str → Ledger
  | [], id => [(id, 1)]
  | (k, v) :: rest, id =>
    if k = id then (k, v + 1) :: rest else (k, v) :: bump rest id

/-- The body of one `for` iteration before the break test:
`if (cost + it.price <= budget) { next[it.id]++; cost += it.price; }`. -/
def innerStep (budget : ℚ) (it : Item) (next : Ledger) (cost : ℚ) : Ledger × ℚ :=
  if cost + it.price ≤ budget then (bump next it.id, cost + it.price)
  else (next, cost)

/-- One pass of the `for (const it of sorted)` loop inside
`greedyOptimizeProtein`; the `Bool` component reports whether
`break outer` fired during the pass. -/
def innerPass (sorted : List Item) (budget : ℚ) :
    List Item → Ledger → ℚ → Ledger × ℚ × Bool
  | [], next, cost => (next, cost, false)
  | it :: rest, next, cost =>
    if sorted.length = 0 ∨ (innerStep budget it next cost).2 + minPrice sorted > budget
      then ((innerStep budget it next cost).1, (innerStep budget it next cost).2, true)
      else innerPass sorted budget rest (innerStep budget it next cost).1
        (innerStep budget it next cost).2

/-- The `outer: while (true)` loop of `greedyOptimizeProtein`, with
explicit fuel; `none` means the fuel ran out before the loop exited. -/
def greedyLoop (sorted : List Item) (budget : ℚ) :
    Nat → Ledger → ℚ → Option (Ledger × ℚ)
  | 0, _, _ => none
  | fuel + 1, next, cost =>
    let r := innerPass sorted budget sorted next cost
    if r.2.2 then some (r.1, r.2.1)
    else if sorted.all fun it => decide (r.2.1 + it.price > budget)
      then some (r.1, r.2.1)
    else greedyLoop sorted budget fuel r.1 r.2.1

/-- `greedyOptimizeProtein` from the source, returning the replacement
ledger passed to `setQty` together with the final running cost. -/
def greedyOptimizeProtein (items : List Item) (targets : Targets) (fuel : Nat) :
    Option (Ledger × ℚ) :=
  let budget := targets.budget.getD 1000
  let sorted := items.mergeSort rateLe
  greedyLoop sorted budget fuel [] 0

/-- Termination of the greedy strategy: some amount of fuel makes the
embedded loop exit. -/
def GreedyTerminates (items : List Item) (targets : Targets) : Prop :=
  ∃ fuel r, greedyOptimizeProtein items targets fuel = some r

/-- The `passFail` record from the source
(`targets.x === undefined ? true : comparison`). -/
structure PassFail where
  budget : Bool
  kcal : Bool
  protein : Bool
  salt : Bool
deriving DecidableEq

/-- The constraint evaluator from the source. -/
def passFail (totals : Totals) (targets : Targets) : PassFail where
  budget := match targets.budget with
    | none => true
    | some b => decide (totals.price ≤ b)
  kcal := match targets.maxKcal with
    | none => true
    | some b => decide (totals.kcal ≤ b)
  protein := match targets.minProtein with
    | none => true
    | some b => decide (totals.protein ≥ b)
  salt := match targets.maxSalt with
    | none => true
    | some b => decide (totals.salt ≤ b)

/-- Scale every quantity of a ledger by a non-negative integer factor. -/
def scaleLedger (k : ℕ) (l : Ledger) : Ledger :=
  l.map fun e => (e.1, (k : ℚ) * e.2)

/-- A price-0 catalog item; the data model does not force prices to be
positive. -/
def zeroPriceItem : Item where
  id := ['x']
  name := ['x']
  category := ['c']
  price := 0

/-- A simple positive-price item used in concrete evaluations. -/
def sampleItem : Item where
  id := ['a']
  name := ['a']
  category := ['c']
  price := 100
  protein := some 10

/-- First of two catalog entries sharing the id `a`. -/
def dupA : Item where
  id := ['a']
  name := ['a']
  category := ['c']
  price := 100
  protein := some 100

/-- Second of two catalog entries sharing the id `a`. -/
def dupB : Item where
  id := ['a']
  name := ['b']
  category := ['c']
  price := 700
  protein := some 0

/-- An item tagged `pasta`, used to exercise the search filter. -/
def pastaItem : Item where
  id := ['p']
  name := ['p']
  category := ['c']
  price := 500
  tags := some [['p', 'a', 's', 't', 'a']]

/-- Loop invariant for the greedy optimizer: the ledger has non-negative
values, its catalog total price equals the running cost, and the running
cost is within budget. -/
def GoodState (items : List Item) (b : ℚ) (next : Ledger) (cost : ℚ) : Prop :=
  (∀ e ∈ next, 0 ≤ e.2) ∧
  sum (items.map fun it => it.price * getQty next it.id) = cost ∧
  cost ≤ b

/-! ### Summation helpers -/

theorem foldl_add_shift (l : List ℚ) : ∀ a : ℚ, l.foldl (· + ·) a = a + l.sum := by
  induction l with
  | nil => intro a; simp
  | cons x xs ih => intro a; simp only [List.foldl_cons, ih, List.sum_cons]; ring

theorem sum_eq_listSum (l : List ℚ) : sum l = l.sum := by
  simpa using foldl_add_shift l 0

theorem sum_map_zero (l : List Item) : sum (l.map fun _ => (0 : ℚ)) = 0 := by
  rw [sum_eq_listSum]; simp

theorem sum_map_mul (c : ℚ) (f : Item → ℚ) (l : List Item) :
    sum (l.map fun it => c * f it) = c * sum (l.map f) := by
  rw [sum_eq_listSum, sum_eq_listSum, List.sum_map_mul_left]

theorem pickAttr_eq_getD (v : Option ℚ) (q : ℚ) : pickAttr v q = v.getD 0 * q := by
  cases v <;> simp [pickAttr]

theorem computeTotals_congr (items : List Item) (q1 q2 : Ledger)
    (h : ∀ id, getQty q1 id = getQty q2 id) :
    computeTotals items q1 = computeTotals items q2 := by
  simp only [computeTotals]
  congr 1 <;> exact congrArg sum (List.map_congr_left fun it _ => by rw [h it.id])

/-! ### C5: the totals aggregation formula -/

theorem getQty_neg_single (id : Str) : getQty [(['a'], -5)] id = getQty [] id := by
  unfold getQty ledgerRead ledgerFind
  by_cases hid : (['a'] : Str) = id
  · rw [if_pos hid]
    simp only [Option.getD_some, Option.getD_none]
    rw [max_eq_left (by norm_num : (-5 : ℚ) ≤ 0), max_self]
  · rw [if_neg hid]
    rfl

/-- C5: each numeric attribute of `computeTotals` is the sum over items of
the attribute value (0 when absent) times the effective quantity
`max 0 (qty[id] or 0)`, and `count` is the sum of the effective
quantities; negative or missing entries contribute nothing, so the ledger
mapping only `a ↦ -5` yields the same totals as the empty ledger. -/
theorem computeTotals_spec (items : List Item) (qty : Ledger) :
    (computeTotals items qty).count
        = sum (items.map fun it => max 0 (ledgerRead qty it.id)) ∧
    (computeTotals items qty).price
        = sum (items.map fun it => it.price * max 0 (ledgerRead qty it.id)) ∧
    (computeTotals items qty).kcal
        = sum (items.map fun it => it.kcal.getD 0 * max 0 (ledgerRead qty it.id)) ∧
    (computeTotals items qty).protein
        = sum (items.map fun it => it.protein.getD 0 * max 0 (ledgerRead qty it.id)) ∧
    (computeTotals items qty).fat
        = sum (items.map fun it => it.fat.getD 0 * max 0 (ledgerRead qty it.id)) ∧
    (computeTotals items qty).carbs
        = sum (items.map fun it => it.carbs.getD 0 * max 0 (ledgerRead qty it.id)) ∧
    (computeTotals items qty).salt
        = sum (items.map fun it => it.salt.getD 0 * max 0 (ledgerRead qty it.id)) ∧
    computeTotals items [(['a'], -5)] = computeTotals items [] := by
  refine ⟨rfl, rfl, ?_, ?_, ?_, ?_, ?_, ?_⟩
  · exact congrArg sum (List.map_congr_left fun it _ => pickAttr_eq_getD _ _)
  · exact congrArg sum (List.map_congr_left fun it _ => pickAttr_eq_getD _ _)
  · exact congrArg sum (List.map_congr_left fun it _ => pickAttr_eq_getD _ _)
  · exact congrArg sum (List.map_congr_left fun it _ => pickAttr_eq_getD _ _)
  · exact congrArg sum (List.map_congr_left fun it _ => pickAttr_eq_getD _ _)
  · exact computeTotals_congr items _ _ getQty_neg_single

/-! ### C7: linearity of the aggregator -/

theorem ledgerFind_scale (k : ℕ) (l : Ledger) (id : Str) :
    ledgerFind (scaleLedger k l) id = (ledgerFind l id).map fun v => (k : ℚ) * v := by
  induction l with
  | nil => rfl
  | cons e rest ih =>
    obtain ⟨ek, ev⟩ := e
    by_cases h : ek = id
    · simp [scaleLedger, ledgerFind, if_pos h]
    · simpa [scaleLedger, ledgerFind, if_neg h] using ih

theorem getQty_scale (k : ℕ) (l : Ledger) (id : Str) :
    getQty (scaleLedger k l) id = k * getQty l id := by
  unfold getQty ledgerRead
  rw [ledgerFind_scale]
  cases h : ledgerFind l id with
  | none => simp
  | some v =>
    simp only [Option.map_some', Option.getD_some]
    rw [mul_max_of_nonneg _ _ (by exact_mod_cast Nat.cast_nonneg k : (0 : ℚ) ≤ k),
      mul_zero]

/-- C7: `computeTotals` is linear — scaling every ledger quantity by a
non-negative integer `k` scales every totals field by `k`. -/
theorem computeTotals_linear (items : List Item) (qty : Ledger) (k : ℕ) :
    computeTotals items (scaleLedger k qty) =
      { count := k * (computeTotals items qty).count
        price := k * (computeTotals items qty).price
        kcal := k * (computeTotals items qty).kcal
        protein := k * (computeTotals items qty).protein
        fat := k * (computeTotals items qty).fat
        carbs := k * (computeTotals items qty).carbs
        salt := k * (computeTotals items qty).salt } := by
  simp only [computeTotals]
  congr 1
  · rw [← sum_map_mul]
    exact congrArg sum (List.map_congr_left fun it _ => by rw [getQty_scale])
  · rw [← sum_map_mul]
    exact congrArg sum (List.map_congr_left fun it _ => by rw [getQty_scale]; ring)
  · rw [← sum_map_mul]
    exact congrArg sum (List.map_congr_left fun it _ => by
      rw [getQty_scale, pickAttr_eq_getD, pickAttr_eq_getD]; ring)
  · rw [← sum_map_mul]
    exact congrArg sum (List.map_congr_left fun it _ => by
      rw [getQty_scale, pickAttr_eq_getD, pickAttr_eq_getD]; ring)
  · rw [← sum_map_mul]
    exact congrArg sum (List.map_congr_left fun it _ => by
      rw [getQty_scale, pickAttr_eq_getD, pickAttr_eq_getD]; ring)
  · rw [← sum_map_mul]
    exact congrArg sum (List.map_congr_left fun it _ => by
      rw [getQty_scale, pickAttr_eq_getD, pickAttr_eq_getD]; ring)
  · rw [← sum_map_mul]
    exact congrArg sum (List.map_congr_left fun it _ => by
      rw [getQty_scale, pickAttr_eq_getD, pickAttr_eq_getD]; ring)

/-! ### C4: the constraint evaluator -/

/-- C4: each dimension of `passFail` passes unconditionally when the
corresponding target is unset, and otherwise compares inclusively against
the threshold (`≤` for budget, kcal and salt, `≥` for protein); at the
boundary, price 1000 passes budget 1000, price 1001 fails it, and protein
19.999 fails minProtein 20. -/
theorem passFail_spec (t : Totals) (g : Targets) :
    (g.budget = none → (passFail t g).budget = true) ∧
    (∀ b, g.budget = some b → ((passFail t g).budget = true ↔ t.price ≤ b)) ∧
    (g.maxKcal = none → (passFail t g).kcal = true) ∧
    (∀ b, g.maxKcal = some b → ((passFail t g).kcal = true ↔ t.kcal ≤ b)) ∧
    (g.minProtein = none → (passFail t g).protein = true) ∧
    (∀ b, g.minProtein = some b → ((passFail t g).protein = true ↔ b ≤ t.protein)) ∧
    (g.maxSalt = none → (passFail t g).salt = true) ∧
    (∀ b, g.maxSalt = some b → ((passFail t g).salt = true ↔ t.salt ≤ b)) ∧
    (passFail ⟨0, 1000, 0, 0, 0, 0, 0⟩ ⟨some 1000, none, none, none⟩).budget = true ∧
    (passFail ⟨0, 1001, 0, 0, 0, 0, 0⟩ ⟨some 1000, none, none, none⟩).budget = false ∧
    (passFail ⟨0, 0, 0, 19999 / 1000, 0, 0, 0⟩ ⟨none, none, some 20, none⟩).protein
      = false := by
  refine ⟨?_, ?_, ?_, ?_, ?_, ?_, ?_, ?_, by decide, by decide,
    by simp only [passFail]; norm_num⟩
  · intro h; simp [passFail, h]
  · intro b hb; simp [passFail, hb]
  · intro h; simp [passFail, h]
  · intro b hb; simp [passFail, hb]
  · intro h; simp [passFail, h]
  · intro b hb; simp [passFail, hb, ge_iff_le]
  · intro h; simp [passFail, h]
  · intro b hb; simp [passFail, hb]

theorem passFail_spec_witness :
    (passFail ⟨0, 900, 0, 0, 0, 0, 0⟩ ⟨some 1000, none, none, none⟩).budget = true :=
  ((passFail_spec ⟨0, 900, 0, 0, 0, 0, 0⟩ ⟨some 1000, none, none, none⟩).2.1
    1000 rfl).mpr (by norm_num)

/-! ### C8: the save-list retention policy -/

/-- C8: both insert operations keep at most `MAX_SAVES` (50) entries; the
result is always a suffix of the appended list, i.e. any dropped entries
are the oldest by list position, and the exact retained length shows that
entries are dropped only when capacity would be exceeded. -/
theorem saves_capacity_spec (prev : List SavedCombo) (s : SavedCombo)
    (valid : List SavedCombo) :
    (saveCurrentSaves prev s).length ≤ MAX_SAVES ∧
    (saveCurrentSaves prev s).length = min (MAX_SAVES - 1) prev.length + 1 ∧
    saveCurrentSaves prev s <:+ prev ++ [s] ∧
    (importSavesAppend prev valid).length ≤ MAX_SAVES ∧
    (importSavesAppend prev valid).length = min MAX_SAVES (prev.length + valid.length) ∧
    importSavesAppend prev valid <:+ prev ++ valid := by
  refine ⟨?_, ?_, ?_, ?_, ?_, ?_⟩
  · simp only [saveCurrentSaves, sliceLast, MAX_SAVES, List.length_append,
      List.length_drop, List.length_singleton]
    omega
  · simp only [saveCurrentSaves, sliceLast, MAX_SAVES, List.length_append,
      List.length_drop, List.length_singleton]
    omega
  · obtain ⟨t, ht⟩ := List.drop_suffix (prev.length - (MAX_SAVES - 1)) prev
    exact ⟨t, by rw [saveCurrentSaves, sliceLast, ← List.append_assoc, ht]⟩
  · simp only [importSavesAppend, sliceLast, MAX_SAVES, List.length_append,
      List.length_drop]
    omega
  · simp only [importSavesAppend, sliceLast, MAX_SAVES, List.length_append,
      List.length_drop]
    omega
  · exact List.drop_suffix _ _

/-! ### C6: the search filter -/

theorem jsToLower_eq_nil (s : Str) : jsToLower s = [] ↔ s = [] := by
  simp [jsToLower]

/-- C6: `simpleFilter` returns an order-preserving subsequence of its
input; when the trimmed query is empty it returns the items unchanged, and
otherwise it keeps exactly the items whose lower-cased space-joined
name/category/tags string contains the trimmed lower-cased query as a
substring. -/
theorem simpleFilter_spec (items : List Item) (q : Str) :
    (simpleFilter items q).Sublist items ∧
    (jsTrim q = [] → simpleFilter items q = items) ∧
    (jsTrim q ≠ [] → ∀ it, it ∈ simpleFilter items q ↔
        it ∈ items ∧ jsIncludes (itemHaystack it) (jsToLower (jsTrim q)) = true) := by
  by_cases h : jsToLower (jsTrim q) = []
  · have h' : jsTrim q = [] := (jsToLower_eq_nil _).mp h
    exact ⟨by simp [simpleFilter, h], fun _ => by simp [simpleFilter, h],
      fun hne => absurd h' hne⟩
  · have h' : jsTrim q ≠ [] := fun e => h (by rw [e]; rfl)
    refine ⟨?_, fun he => absurd he h', fun _ it => ?_⟩
    · simp only [simpleFilter, if_neg h]
      exact List.filter_sublist _
    · simp only [simpleFilter, if_neg h]
      exact List.mem_filter

theorem simpleFilter_spec_witness :
    pastaItem ∈ simpleFilter [pastaItem] ['P', 'A', 'S', 'T', 'A', ' '] :=
  ((simpleFilter_spec [pastaItem] ['P', 'A', 'S', 'T', 'A', ' ']).2.2 (by decide)
    pastaItem).mpr ⟨List.mem_singleton.mpr rfl, by decide⟩

/-! ### C1 / C10: the saved-combo codec -/

/-- C1 counterexample: for the fractional ledger value `a ↦ 1/2` the
compaction filter keeps the entry (its value is positive) but the floor
sends it to `0`, so the saved qty contains an entry whose value is zero. -/
theorem createSavedCombo_zero_entry :
    (createSavedCombo ['n'] [(['a'], 1 / 2)] none [] 0 ['t']).qty
      = [(['a'], 0)] := by
  have h1 : (0 : ℚ) < 1 / 2 := by norm_num
  have h2 : ⌊(2⁻¹ : ℚ)⌋ = 0 := by norm_num
  simp [createSavedCombo, List.filter_cons, h1]
  exact h2.le

/-- C1 (amended): every entry retained by `createSavedCombo` has a
non-negative integer value; when the input ledger's values are themselves
integers, every retained entry is moreover positive; and for the ledger
`a ↦ 2, b ↦ 0, c ↦ -5` the saved qty is exactly `a ↦ 2`. -/
theorem createSavedCombo_qty_entries (name : Str) (qty : Ledger)
    (targets : Option Targets) (nowIdStr : Str) (now : ℚ) (nowLocaleStr : Str) :
    (∀ e ∈ (createSavedCombo name qty targets nowIdStr now nowLocaleStr).qty,
        0 ≤ e.2 ∧ ∃ n : ℤ, e.2 = (n : ℚ)) ∧
    ((∀ e ∈ qty, ∃ n : ℤ, e.2 = (n : ℚ)) →
      ∀ e ∈ (createSavedCombo name qty targets nowIdStr now nowLocaleStr).qty,
        0 < e.2) ∧
    (createSavedCombo name [(['a'], 2), (['b'], 0), (['c'], -5)] targets
        nowIdStr now nowLocaleStr).qty = [(['a'], 2)] := by
  refine ⟨?_, ?_, ?_⟩
  · intro e he
    simp only [createSavedCombo, List.mem_map] at he
    obtain ⟨x, _, rfl⟩ := he
    constructor
    · show (0 : ℚ) ≤ ((max 0 ⌊x.2⌋ : ℤ) : ℚ)
      exact_mod_cast le_max_left 0 ⌊x.2⌋
    · exact ⟨max 0 ⌊x.2⌋, rfl⟩
  · intro hint e he
    simp only [createSavedCombo, List.mem_map, List.mem_filter,
      decide_eq_true_eq] at he
    obtain ⟨x, ⟨hxq, hxpos⟩, rfl⟩ := he
    obtain ⟨n, hn⟩ := hint x hxq
    have hn1 : 1 ≤ n := by
      have : (0 : ℚ) < (n : ℚ) := hn ▸ hxpos
      exact_mod_cast this
    have hfl : ⌊x.2⌋ = n := by rw [hn, Int.floor_intCast]
    have hcast : ((max 0 ⌊x.2⌋ : ℤ) : ℚ) = (n : ℚ) := by
      rw [hfl, max_eq_right (by omega : (0 : ℤ) ≤ n)]
    show (0 : ℚ) < ((max 0 ⌊x.2⌋ : ℤ) : ℚ)
    rw [hcast]
    exact_mod_cast (by omega : (0 : ℤ) < n)
  · have h2 : ⌊(2 : ℚ)⌋ = 2 := by norm_num
    norm_num [createSavedCombo, List.filter_cons, h2]

theorem createSavedCombo_qty_entries_witness :
    0 < ((['a'] : Str), (2 : ℚ)).2 := by
  have hq : (createSavedCombo ['n'] [(['a'], 2)] none [] 0 ['t']).qty
      = [(['a'], 2)] := by
    have h2 : ⌊(2 : ℚ)⌋ = 2 := by norm_num
    norm_num [createSavedCombo, List.filter_cons, h2]
  exact (createSavedCombo_qty_entries ['n'] [(['a'], 2)] none [] 0 ['t']).2.1
    (fun e he => ⟨2, by simp only [List.mem_singleton] at he; rw [he]; norm_num⟩)
    ⟨['a'], 2⟩ (by rw [hq]; exact List.mem_singleton.mpr rfl)

/-- C10: when the trimmed name is non-empty the saved name is exactly the
trimmed input, and whenever the locale-formatted fallback string is
non-empty (as `toLocaleString("ja-JP")` renderings always are) the saved
name is non-empty. -/
theorem createSavedCombo_name_spec (name : Str) (qty : Ledger)
    (targets : Option Targets) (nowIdStr : Str) (now : ℚ) (nowLocaleStr : Str) :
    (jsTrim name ≠ [] →
      (createSavedCombo name qty targets nowIdStr now nowLocaleStr).name
        = jsTrim name) ∧
    (nowLocaleStr ≠ [] →
      (createSavedCombo name qty targets nowIdStr now nowLocaleStr).name ≠ []) := by
  constructor
  · intro h
    have hn : name ≠ [] := fun e => h (by rw [e]; rfl)
    simp only [createSavedCombo, if_pos (And.intro hn h)]
  · intro h
    by_cases hc : name ≠ [] ∧ jsTrim name ≠ []
    · simp only [createSavedCombo, if_pos hc]
      exact hc.2
    · simp only [createSavedCombo, if_neg hc]
      exact h

theorem createSavedCombo_name_spec_witness :
    (createSavedCombo [' ', 'h', 'i'] [] none [] 0 ['t']).name
      = jsTrim [' ', 'h', 'i'] :=
  (createSavedCombo_name_spec [' ', 'h', 'i'] [] none [] 0 ['t']).1 (by decide)

/-! ### C9: the structural validator -/

theorem isStringField_iff (o : Option JsValue) :
    isStringField o = true ↔ ∃ t, o = some (JsValue.str t) := by
  cases o with
  | none => simp [isStringField]
  | some v => cases v <;> simp [isStringField]

theorem isNumberField_iff (o : Option JsValue) :
    isNumberField o = true ↔ ∃ x, o = some (JsValue.num x) := by
  cases o with
  | none => simp [isNumberField]
  | some v => cases v <;> simp [isNumberField]

theorem isTruthyObjectField_iff (o : Option JsValue) :
    isTruthyObjectField o = true ↔ ∃ q, o = some q ∧ IsObjectLike q := by
  cases o with
  | none => simp [isTruthyObjectField]
  | some v =>
    cases v <;> simp [isTruthyObjectField, truthy, typeofIsObject, IsObjectLike]

/-- C9: `validateSavedCombo` accepts exactly the values that are objects
carrying a string `id`, a string `name`, a numeric `createdAt` and a
(non-null) object-typed `qty`; the contents of `qty` and the shape of
`targets` are never inspected. -/
theorem validateSavedCombo_iff (s : JsValue) :
    validateSavedCombo s = true ↔ SpecValidShape s := by
  cases s with
  | obj fields =>
    simp only [validateSavedCombo, truthy, typeofIsObject, getField,
      Bool.and_eq_true, true_and]
    rw [isStringField_iff, isStringField_iff, isNumberField_iff,
      isTruthyObjectField_iff]
    constructor
    · rintro ⟨⟨⟨hid, hname⟩, hcreated⟩, hqty⟩
      exact ⟨fields, rfl, hid, hname, hcreated, hqty⟩
    · rintro ⟨fields', heq, hid, hname, hcreated, hqty⟩
      cases heq
      exact ⟨⟨⟨hid, hname⟩, hcreated⟩, hqty⟩
  | null =>
    simp [validateSavedCombo, truthy, SpecValidShape]
  | bool b =>
    simp [validateSavedCombo, truthy, typeofIsObject, SpecValidShape]
  | num x =>
    simp [validateSavedCombo, truthy, typeofIsObject, SpecValidShape]
  | str t =>
    simp [validateSavedCombo, truthy, typeofIsObject, SpecValidShape]
  | arr elems =>
    simp [validateSavedCombo, truthy, typeofIsObject, getField, isStringField,
      SpecValidShape]

/-! ### C2: termination and divergence of the greedy loop -/

theorem greedyLoop_zeroPrice_none : ∀ (fuel : Nat) (next : Ledger),
    greedyLoop [zeroPriceItem] 0 fuel next 0 = none := by
  intro fuel
  induction fuel with
  | zero => intro next; rfl
  | succ n ih =>
    intro next
    have hinner : innerPass [zeroPriceItem] 0 [zeroPriceItem] next 0
        = (bump next ['x'], 0, false) := by
      simp [innerPass, innerStep, zeroPriceItem, minPrice]
    simp only [greedyLoop, hinner]
    simp [zeroPriceItem]
    exact ih (bump next ['x'])

/-- C2 counterexample: on a catalog containing a price-0 item, with budget
0, the greedy loop never exits — no amount of fuel yields a result, so the
strategy does not terminate for every catalog and budget. -/
theorem greedy_diverges_zero_price :
    ¬ GreedyTerminates [zeroPriceItem] ⟨some 0, none, none, none⟩ := by
  rintro ⟨fuel, r, hr⟩
  simp only [greedyOptimizeProtein, Option.getD_some, List.mergeSort_singleton] at hr
  rw [greedyLoop_zeroPrice_none] at hr
  exact Option.noConfusion hr

theorem foldl_min_le_init (xs : List Item) :
    ∀ a : ℚ, xs.foldl (fun m it => min m it.price) a ≤ a := by
  induction xs with
  | nil => intro a; exact le_refl a
  | cons x xs ih =>
    intro a
    exact le_trans (ih (min a x.price)) (min_le_left _ _)

theorem foldl_min_le_mem (xs : List Item) :
    ∀ a : ℚ, ∀ it ∈ xs, xs.foldl (fun m it => min m it.price) a ≤ it.price := by
  induction xs with
  | nil => intro a it hit; cases hit
  | cons x xs ih =>
    intro a it hit
    rcases List.mem_cons.mp hit with h | h
    · subst h
      exact le_trans (foldl_min_le_init xs _) (min_le_right _ _)
    · exact ih _ it h

theorem foldl_min_pos (xs : List Item) :
    ∀ a : ℚ, 0 < a → (∀ it ∈ xs, 0 < it.price) →
      0 < xs.foldl (fun m it => min m it.price) a := by
  induction xs with
  | nil => intro a ha _; exact ha
  | cons x xs ih =>
    intro a ha hp
    exact ih _ (lt_min ha (hp x (List.mem_cons_self x xs)))
      (fun it hit => hp it (List.mem_cons_of_mem _ hit))

theorem minPrice_le (sorted : List Item) :
    ∀ it ∈ sorted, minPrice sorted ≤ it.price := by
  cases sorted with
  | nil => intro it hit; cases hit
  | cons x xs =>
    intro it hit
    rcases List.mem_cons.mp hit with h | h
    · subst h; exact foldl_min_le_init xs _
    · exact foldl_min_le_mem xs _ it h

theorem minPrice_pos (sorted : List Item) (hne : sorted ≠ [])
    (hp : ∀ it ∈ sorted, 0 < it.price) : 0 < minPrice sorted := by
  cases sorted with
  | nil => exact absurd rfl hne
  | cons x xs =>
    exact foldl_min_pos xs x.price (hp x (List.mem_cons_self x xs))
      (fun it hit => hp it (List.mem_cons_of_mem _ hit))

theorem innerStep_cost_le (b : ℚ) (it : Item) (next : Ledger) (cost : ℚ)
    (hp : 0 ≤ it.price) : cost ≤ (innerStep b it next cost).2 := by
  unfold innerStep
  split
  · exact le_add_of_nonneg_right hp
  · exact le_refl cost

theorem innerPass_cost_le (sorted : List Item) (b : ℚ) :
    ∀ (rest : List Item) (next : Ledger) (cost : ℚ),
      (∀ it ∈ rest, 0 ≤ it.price) →
      cost ≤ (innerPass sorted b rest next cost).2.1 := by
  intro rest
  induction rest with
  | nil => intro next cost _; exact le_refl cost
  | cons it rest ih =>
    intro next cost hp
    have hstep := innerStep_cost_le b it next cost (hp it (List.mem_cons_self it rest))
    simp only [innerPass]
    split
    · exact hstep
    · exact le_trans hstep
        (ih _ _ (fun i hi => hp i (List.mem_cons_of_mem _ hi)))

theorem innerPass_stall (sorted : List Item) (b : ℚ) :
    ∀ (rest : List Item) (next : Ledger) (cost : ℚ),
      (∀ it ∈ rest, 0 < it.price) →
      (innerPass sorted b rest next cost).2.1 = cost →
      (innerPass sorted b rest next cost).2.2 = false →
      ∀ it ∈ rest, ¬ (cost + it.price ≤ b) := by
  intro rest
  induction rest with
  | nil => intro next cost _ _ _ it hit; cases hit
  | cons it rest ih =>
    intro next cost hp hcost hbroke it' hit'
    by_cases hcond : (sorted.length = 0 ∨
        (innerStep b it next cost).2 + minPrice sorted > b)
    · simp only [innerPass, if_pos hcond] at hbroke
      exact absurd hbroke (by simp)
    · simp only [innerPass, if_neg hcond] at hcost hbroke
      by_cases hc : cost + it.price ≤ b
      · exfalso
        have hstep : (innerStep b it next cost).2 = cost + it.price := by
          unfold innerStep; rw [if_pos hc]
        have hmono := innerPass_cost_le sorted b rest (innerStep b it next cost).1
          (innerStep b it next cost).2
          (fun i hi => le_of_lt (hp i (List.mem_cons_of_mem _ hi)))
        rw [hcost, hstep] at hmono
        have := hp it (List.mem_cons_self it rest)
        linarith
      · have hstep1 : (innerStep b it next cost).1 = next := by
          unfold innerStep; rw [if_neg hc]
        have hstep2 : (innerStep b it next cost).2 = cost := by
          unfold innerStep; rw [if_neg hc]
        rcases List.mem_cons.mp hit' with h | h
        · subst h; exact hc
        · rw [hstep1, hstep2] at hcost hbroke
          exact ih next cost (fun i hi => hp i (List.mem_cons_of_mem _ hi))
            hcost hbroke it' h

theorem innerPass_gain (sorted : List Item) (b : ℚ) :
    ∀ (rest : List Item) (next : Ledger) (cost : ℚ),
      (∀ it ∈ rest, 0 ≤ it.price) →
      (∀ it ∈ rest, minPrice sorted ≤ it.price) →
      (innerPass sorted b rest next cost).2.1 = cost ∨
        cost + minPrice sorted ≤ (innerPass sorted b rest next cost).2.1 := by
  intro rest
  induction rest with
  | nil => intro next cost _ _; exact Or.inl rfl
  | cons it rest ih =>
    intro next cost hp hm
    by_cases hcond : (sorted.length = 0 ∨
        (innerStep b it next cost).2 + minPrice sorted > b)
    · simp only [innerPass, if_pos hcond]
      by_cases hc : cost + it.price ≤ b
      · right
        have hstep : (innerStep b it next cost).2 = cost + it.price := by
          unfold innerStep; rw [if_pos hc]
        rw [hstep]
        exact add_le_add_left (hm it (List.mem_cons_self it rest)) cost
      · left
        unfold innerStep
        rw [if_neg hc]
    · simp only [innerPass, if_neg hcond]
      by_cases hc : cost + it.price ≤ b
      · right
        have hstep2 : (innerStep b it next cost).2 = cost + it.price := by
          unfold innerStep; rw [if_pos hc]
        have hmono := innerPass_cost_le sorted b rest (innerStep b it next cost).1
          (innerStep b it next cost).2 (fun i hi => hp i (List.mem_cons_of_mem _ hi))
        calc cost + minPrice sorted
            ≤ cost + it.price :=
              add_le_add_left (hm it (List.mem_cons_self it rest)) cost
          _ = (innerStep b it next cost).2 := hstep2.symm
          _ ≤ _ := hmono
      · have hstep1 : (innerStep b it next cost).1 = next := by
          unfold innerStep; rw [if_neg hc]
        have hstep2 : (innerStep b it next cost).2 = cost := by
          unfold innerStep; rw [if_neg hc]
        rw [hstep1, hstep2]
        exact ih next cost (fun i hi => hp i (List.mem_cons_of_mem _ hi))
          (fun i hi => hm i (List.mem_cons_of_mem _ hi))

theorem greedyLoop_exits_empty (b : ℚ) (fuel : Nat) (next : Ledger) (cost : ℚ) :
    greedyLoop [] b (fuel + 1) next cost = some (next, cost) := by
  simp [greedyLoop, innerPass]

theorem greedyLoop_exits_pos (sorted : List Item) (b : ℚ)
    (hp : ∀ it ∈ sorted, 0 < it.price) (hne : sorted ≠ []) :
    ∀ (n : Nat) (next : Ledger) (cost : ℚ),
      b - cost ≤ n * minPrice sorted →
      ∃ r, greedyLoop sorted b (n + 1) next cost = some r := by
  have hm : 0 < minPrice sorted := minPrice_pos sorted hne hp
  intro n
  induction n with
  | zero =>
    intro next cost hb
    have hble : b ≤ cost := by
      simp only [Nat.cast_zero, zero_mul] at hb
      linarith
    rcases hsor : sorted with _ | ⟨s0, ss⟩
    · exact absurd hsor hne
    · have hp0 : 0 < s0.price := by
        rw [hsor] at hp
        exact hp s0 (List.mem_cons_self s0 ss)
      have hc : ¬ (cost + s0.price ≤ b) := by intro hle; linarith
      have hstep2 : (innerStep b s0 next cost).2 = cost := by
        unfold innerStep; rw [if_neg hc]
      have hcond : ((s0 :: ss).length = 0 ∨
          (innerStep b s0 next cost).2 + minPrice (s0 :: ss) > b) := by
        right
        rw [hstep2]
        rw [hsor] at hm
        linarith
      refine ⟨((innerStep b s0 next cost).1, (innerStep b s0 next cost).2), ?_⟩
      simp only [greedyLoop, innerPass, if_pos hcond]
      simp
  | succ n ih =>
    intro next cost hb
    by_cases hbroke : (innerPass sorted b sorted next cost).2.2 = true
    · refine ⟨((innerPass sorted b sorted next cost).1,
        (innerPass sorted b sorted next cost).2.1), ?_⟩
      simp only [greedyLoop, if_pos hbroke]
    · by_cases hall : (sorted.all fun it =>
          decide ((innerPass sorted b sorted next cost).2.1 + it.price > b)) = true
      · refine ⟨((innerPass sorted b sorted next cost).1,
          (innerPass sorted b sorted next cost).2.1), ?_⟩
        simp only [greedyLoop, if_neg hbroke, if_pos hall]
      · have hneq : (innerPass sorted b sorted next cost).2.1 ≠ cost := by
          intro heq
          apply hall
          rw [List.all_eq_true]
          intro it hit
          rw [decide_eq_true_eq, heq]
          have := innerPass_stall sorted b sorted next cost hp heq
            (Bool.not_eq_true _ ▸ hbroke) it hit
          linarith [lt_of_not_le this]
        have hgain : cost + minPrice sorted ≤
            (innerPass sorted b sorted next cost).2.1 := by
          rcases innerPass_gain sorted b sorted next cost
            (fun i hi => le_of_lt (hp i hi)) (minPrice_le sorted) with h | h
          · exact absurd h hneq
          · exact h
        have hb' : b - (innerPass sorted b sorted next cost).2.1
            ≤ n * minPrice sorted := by
          push_cast at hb ⊢
          linarith
        obtain ⟨r, hr⟩ := ih (innerPass sorted b sorted next cost).1
          (innerPass sorted b sorted next cost).2.1 hb'
        refine ⟨r, ?_⟩
        simp only [greedyLoop, if_neg hbroke, if_neg hall]
        exact hr

/-- C2 (amended): on every catalog whose items all have positive price,
the greedy strategy terminates for every targets value — some fuel makes
the embedded loop exit once no further item can be added within budget. -/
theorem greedy_terminates_of_pos_price (items : List Item) (targets : Targets)
    (hp : ∀ it ∈ items, 0 < it.price) : GreedyTerminates items targets := by
  have hgoal : ∃ fuel r,
      greedyLoop (items.mergeSort rateLe) (targets.budget.getD 1000) fuel [] 0
        = some r := by
    have hp' : ∀ it ∈ items.mergeSort rateLe, 0 < it.price := fun it hit =>
      hp it (List.mem_mergeSort.mp hit)
    by_cases hne : items.mergeSort rateLe = []
    · rw [hne]
      exact ⟨1, ([], 0), greedyLoop_exits_empty _ 0 [] 0⟩
    · have hm : 0 < minPrice (items.mergeSort rateLe) :=
        minPrice_pos _ hne hp'
      obtain ⟨n, hn⟩ := exists_nat_ge
        (targets.budget.getD 1000 / minPrice (items.mergeSort rateLe))
      have hbound : targets.budget.getD 1000 - 0
          ≤ n * minPrice (items.mergeSort rateLe) := by
        have := (div_le_iff₀ hm).mp hn
        linarith
      obtain ⟨r, hr⟩ := greedyLoop_exits_pos _ _ hp' hne n [] 0 hbound
      exact ⟨n + 1, r, hr⟩
  obtain ⟨fuel, r, hr⟩ := hgoal
  exact ⟨fuel, r, hr⟩

theorem greedy_terminates_witness :
    GreedyTerminates [sampleItem] ⟨some 100, none, none, none⟩ :=
  greedy_terminates_of_pos_price _ _ (by
    intro it hit
    simp only [List.mem_singleton] at hit
    rw [hit]
    norm_num [sampleItem])

/-! ### C3: the greedy result stays within the active budget -/

theorem sum_cons (a : ℚ) (l : List ℚ) : sum (a :: l) = a + sum l := by
  rw [sum_eq_listSum, sum_eq_listSum, List.sum_cons]

theorem ledgerFind_mem (l : Ledger) (id : Str) (v : ℚ)
    (h : ledgerFind l id = some v) : (id, v) ∈ l := by
  induction l with
  | nil => cases h
  | cons e rest ih =>
    obtain ⟨k, w⟩ := e
    simp only [ledgerFind] at h
    by_cases hk : k = id
    · rw [if_pos hk] at h
      obtain rfl : w = v := Option.some.inj h
      subst hk
      exact List.mem_cons_self _ _
    · rw [if_neg hk] at h
      exact List.mem_cons_of_mem _ (ih h)

theorem ledgerRead_nonneg (l : Ledger) (id : Str)
    (h : ∀ e ∈ l, 0 ≤ e.2) : 0 ≤ ledgerRead l id := by
  unfold ledgerRead
  cases hf : ledgerFind l id with
  | none => simp
  | some v => simpa using h (id, v) (ledgerFind_mem l id v hf)

theorem bump_read (next : Ledger) (id : Str) :
    ∀ tgt, ledgerRead (bump next id) tgt
      = ledgerRead next tgt + (if tgt = id then 1 else 0) := by
  induction next with
  | nil =>
    intro tgt
    simp only [bump, ledgerRead, ledgerFind]
    by_cases h : tgt = id
    · rw [if_pos h.symm, if_pos h]
      simp
    · rw [if_neg (Ne.symm h), if_neg h]
      simp
  | cons e rest ih =>
    intro tgt
    obtain ⟨k, w⟩ := e
    by_cases hk : k = id
    · subst hk
      simp only [bump, if_pos rfl, ledgerRead, ledgerFind]
      by_cases ht : k = tgt
      · rw [if_pos ht, if_pos ht, if_pos ht.symm]
        simp
      · rw [if_neg ht, if_neg ht, if_neg (fun e => ht e.symm)]
        simp
    · simp only [bump, if_neg hk, ledgerRead, ledgerFind]
      by_cases ht : k = tgt
      · rw [if_pos ht, if_pos ht, if_neg (fun e => hk ((ht.trans e)))]
        simp
      · rw [if_neg ht, if_neg ht]
        simpa [ledgerRead] using ih tgt

theorem getQty_bump (next : Ledger) (id : Str) (h : ∀ e ∈ next, 0 ≤ e.2) :
    ∀ tgt, getQty (bump next id) tgt
      = getQty next tgt + (if tgt = id then 1 else 0) := by
  intro tgt
  have hr := bump_read next id tgt
  have h1 : 0 ≤ ledgerRead next tgt := ledgerRead_nonneg next tgt h
  have h2 : 0 ≤ ledgerRead (bump next id) tgt := by
    rw [hr]
    by_cases htid : tgt = id
    · rw [if_pos htid]; linarith
    · rw [if_neg htid]; linarith
  simp only [getQty]
  rw [max_eq_right h2, max_eq_right h1, hr]

theorem bump_nonneg (next : Ledger) (id : Str) (h : ∀ e ∈ next, 0 ≤ e.2) :
    ∀ e ∈ bump next id, 0 ≤ e.2 := by
  induction next with
  | nil =>
    intro e he
    simp only [bump, List.mem_singleton] at he
    rw [he]
    norm_num
  | cons x rest ih =>
    obtain ⟨k, w⟩ := x
    intro e he
    by_cases hk : k = id
    · simp only [bump, if_pos hk] at he
      rcases List.mem_cons.mp he with h1 | h1
      · have hw := h (k, w) (List.mem_cons_self _ _)
        rw [h1]
        show (0 : ℚ) ≤ w + 1
        have : (0 : ℚ) ≤ w := hw
        linarith
      · exact h e (List.mem_cons_of_mem _ h1)
    · simp only [bump, if_neg hk] at he
      rcases List.mem_cons.mp he with h1 | h1
      · rw [h1]
        exact h (k, w) (List.mem_cons_self _ _)
      · exact ih (fun e' he' => h e' (List.mem_cons_of_mem _ he')) e h1

theorem sum_price_bump (next : Ledger) (it0 : Item) (hnn : ∀ e ∈ next, 0 ≤ e.2) :
    ∀ (items : List Item), (items.map Item.id).Nodup → it0 ∈ items →
      sum (items.map fun it => it.price * getQty (bump next it0.id) it.id)
        = sum (items.map fun it => it.price * getQty next it.id) + it0.price := by
  intro items
  induction items with
  | nil => intro _ hmem; cases hmem
  | cons x xs ih =>
    intro hnodup hmem
    have hxnot : x.id ∉ xs.map Item.id := (List.nodup_cons.mp hnodup).1
    have hnodup' : (xs.map Item.id).Nodup := (List.nodup_cons.mp hnodup).2
    rcases List.mem_cons.mp hmem with h1 | h1
    · subst h1
      have hhead : it0.price * getQty (bump next it0.id) it0.id
          = it0.price * getQty next it0.id + it0.price := by
        rw [getQty_bump next it0.id hnn it0.id, if_pos rfl]
        ring
      have htail : (xs.map fun it => it.price * getQty (bump next it0.id) it.id)
          = xs.map fun it => it.price * getQty next it.id := by
        apply List.map_congr_left
        intro it hit
        have hne : it.id ≠ it0.id := fun e =>
          hxnot (e ▸ List.mem_map_of_mem Item.id hit)
        rw [getQty_bump next it0.id hnn it.id, if_neg hne, add_zero]
      simp only [List.map_cons, sum_cons, hhead, htail]
      ring
    · have hxne : x.id ≠ it0.id := by
        intro e
        exact hxnot (e ▸ List.mem_map_of_mem Item.id h1)
      have hhead : x.price * getQty (bump next it0.id) x.id
          = x.price * getQty next x.id := by
        rw [getQty_bump next it0.id hnn x.id, if_neg hxne, add_zero]
      simp only [List.map_cons, sum_cons, hhead, ih hnodup' h1]
      ring

theorem innerStep_good (items : List Item) (b : ℚ) (it : Item)
    (hnodup : (items.map Item.id).Nodup) (hmem : it ∈ items)
    (next : Ledger) (cost : ℚ) (hg : GoodState items b next cost) :
    GoodState items b (innerStep b it next cost).1 (innerStep b it next cost).2 := by
  obtain ⟨hnn, hsum, hle⟩ := hg
  unfold innerStep
  split
  case isTrue hc =>
    refine ⟨bump_nonneg next it.id hnn, ?_, hc⟩
    rw [sum_price_bump next it hnn items hnodup hmem, hsum]
  case isFalse hc => exact ⟨hnn, hsum, hle⟩

theorem innerPass_good (items : List Item) (b : ℚ) (sorted : List Item)
    (hnodup : (items.map Item.id).Nodup) :
    ∀ (rest : List Item) (next : Ledger) (cost : ℚ),
      (∀ it ∈ rest, it ∈ items) →
      GoodState items b next cost →
      GoodState items b (innerPass sorted b rest next cost).1
        (innerPass sorted b rest next cost).2.1 := by
  intro rest
  induction rest with
  | nil => intro next cost _ hg; exact hg
  | cons it rest ih =>
    intro next cost hsub hg
    have hstep := innerStep_good items b it hnodup
      (hsub it (List.mem_cons_self it rest)) next cost hg
    simp only [innerPass]
    split
    · exact hstep
    · exact ih _ _ (fun i hi => hsub i (List.mem_cons_of_mem _ hi)) hstep

theorem greedyLoop_good (items sorted : List Item) (b : ℚ)
    (hnodup : (items.map Item.id).Nodup) (hsub : ∀ it ∈ sorted, it ∈ items) :
    ∀ (fuel : Nat) (next : Ledger) (cost : ℚ) (res : Ledger × ℚ),
      GoodState items b next cost →
      greedyLoop sorted b fuel next cost = some res →
      sum (items.map fun it => it.price * getQty res.1 it.id) ≤ b := by
  intro fuel
  induction fuel with
  | zero => intro next cost res _ h; cases h
  | succ n ih =>
    intro next cost res hg h
    have hpass := innerPass_good items b sorted hnodup sorted next cost hsub hg
    simp only [greedyLoop] at h
    split at h
    · obtain rfl : ((innerPass sorted b sorted next cost).1,
          (innerPass sorted b sorted next cost).2.1) = res := Option.some.inj h
      show sum (items.map fun it =>
        it.price * getQty (innerPass sorted b sorted next cost).1 it.id) ≤ b
      rw [hpass.2.1]
      exact hpass.2.2
    · split at h
      · obtain rfl : ((innerPass sorted b sorted next cost).1,
            (innerPass sorted b sorted next cost).2.1) = res := Option.some.inj h
        show sum (items.map fun it =>
          it.price * getQty (innerPass sorted b sorted next cost).1 it.id) ≤ b
        rw [hpass.2.1]
        exact hpass.2.2
      · exact ih _ _ res hpass h

/-- C3 (amended): for every catalog whose item ids are pairwise distinct
and every targets whose active budget (`targets.budget`, defaulting to
1000 when unset) is non-negative, any ledger the greedy loop produces has
a catalog total price (`computeTotals`) within the active budget. -/
theorem greedy_price_le_budget (items : List Item) (targets : Targets)
    (fuel : Nat) (res : Ledger × ℚ)
    (hnodup : (items.map Item.id).Nodup)
    (hb : 0 ≤ targets.budget.getD 1000)
    (h : greedyOptimizeProtein items targets fuel = some res) :
    (computeTotals items res.1).price ≤ targets.budget.getD 1000 := by
  have hsub : ∀ it ∈ items.mergeSort rateLe, it ∈ items := fun it hit =>
    List.mem_mergeSort.mp hit
  have hinit : GoodState items (targets.budget.getD 1000) [] 0 := by
    refine ⟨fun e he => absurd he (List.not_mem_nil e), ?_, hb⟩
    have hz : (items.map fun it => it.price * getQty [] it.id)
        = items.map fun _ => (0 : ℚ) := by
      apply List.map_congr_left
      intro it _
      simp [getQty, ledgerRead, ledgerFind]
    rw [hz, sum_map_zero]
  have h' : greedyLoop (items.mergeSort rateLe) (targets.budget.getD 1000)
      fuel [] 0 = some res := h
  exact greedyLoop_good items _ _ hnodup hsub fuel [] 0 res hinit h'

theorem greedy_price_le_budget_witness :
    (computeTotals [sampleItem] [(['a'], 1)]).price ≤ (100 : ℚ) := by
  have heval : greedyOptimizeProtein [sampleItem] ⟨some 100, none, none, none⟩ 1
      = some ([(['a'], 1)], 100) := by
    simp only [greedyOptimizeProtein, Option.getD_some, List.mergeSort_singleton]
    norm_num [greedyLoop, innerPass, innerStep, minPrice, bump, sampleItem,
      List.all_cons]
  exact greedy_price_le_budget [sampleItem] ⟨some 100, none, none, none⟩ 1
    ([(['a'], 1)], 100) (by simp [sampleItem]) (by norm_num) heval

/-- C3 counterexample: with an empty catalog and budget `-1` the loop
exits at once with the empty ledger, whose total price 0 exceeds the
budget `-1`; and on a catalog with two entries sharing the id `a` the loop
exits with cost 1000 while the catalog total price of the produced ledger
is 3200, far above the budget 1000. -/
theorem greedy_budget_violation :
    (greedyOptimizeProtein [] ⟨some (-1), none, none, none⟩ 1 = some ([], 0) ∧
      ¬ (computeTotals [] ([] : Ledger)).price ≤ (-1 : ℚ)) ∧
    (greedyOptimizeProtein [dupA, dupB] ⟨some 1000, none, none, none⟩ 3
        = some ([(['a'], 4)], 1000) ∧
      ¬ (computeTotals [dupA, dupB] [(['a'], 4)]).price ≤ (1000 : ℚ)) := by
  have hsort : ([dupA, dupB].mergeSort rateLe) = [dupA, dupB] := by
    apply List.mergeSort_of_sorted
    simp [List.pairwise_cons, rateLe, protRate, dupA, dupB]
  refine ⟨⟨?_, ?_⟩, ⟨?_, ?_⟩⟩
  · simp [greedyOptimizeProtein, greedyLoop, innerPass]
  · norm_num [computeTotals, sum, getQty, ledgerRead, ledgerFind]
  · simp only [greedyOptimizeProtein, Option.getD_some, hsort]
    norm_num [greedyLoop, innerPass, innerStep, minPrice, bump, dupA, dupB,
      min_def, List.all_cons]
  · norm_num [computeTotals, sum, getQty, ledgerRead, ledgerFind, dupA, dupB]

end Saizeriya
